import Mathlib

/-!
# Verification of the colima `fsnotify` daemon process

Shallow embedding of `daemon/process/fsnotify/fsnotify.go`: the watcher /
dispatcher that mirrors host-side file writes into the guest as `touch`
operations.

Modelling conventions, function by function:

* `GuestActions` is the guest execution capability; only `RunQuiet` is used
  (by `Touch`), modelled as a function from the argument vector to an
  optional error.
* `Dispatch` (fsnotify.go:224-246) is pure: it returns the ordered list of
  paths handed to `Touch` (one goroutine per retained event, spawned in
  slice order) and the drop count logged on overflow (`none` when the
  overflow branch is not taken).
* The aggregation loop of `watch` (fsnotify.go:186-221) consumes a single
  linearised sequence of channel deliveries (`Msg`): an event on
  `watcher.Events`, closure of either channel, an error on
  `watcher.Errors`, expiry of the 1-second timer, or context
  cancellation.  `collectWindow` is one pass of the inner `loop`;
  `aggregate` is the outer `for`, run with fuel `msgs.length + 1`, which
  is enough to consume any finite delivery sequence (each window removes
  at least its closing message).  An exhausted input models a loop that
  is still blocked in its `select`.
* Directory trees are `FForest`/`FNode`.  A `dir` carries `readErr = true`
  when `ReadDir` on it fails; a `symlink` carries the forest its target
  would expose, which the walk must never look at (`DirEntry.IsDir`
  reports `false` for a symlink, since `ReadDir` does not follow links).
  Paths are component lists relative to the watch root: `[]` is the root
  itself (the literal `"."` handed to `fs.WalkDir` over `os.DirFS(dir)`),
  and `path.Join` of a child is `parent ++ [name]`.  `os.ReadDir` returns
  entries sorted by file name; a forest stands for that sorted order.
* `walkEntries` embeds the `fs.WalkDir` recursion (stdlib `walkDir`)
  specialised to the callback at fsnotify.go:156-174, flattened to a
  single recursion over the sibling list so that it evaluates inside the
  kernel.  `adds` are the paths passed to `watcher.Add` (a failing `Add`
  is logged and the callback still returns nil, so calls are recorded
  unconditionally); `visited` are the paths the callback ran on;
  `brokeOut` records that the callback returned `filepath.SkipDir` for a
  non-directory entry, which makes the stdlib sibling loop `break`.  A
  `SkipDir` for a directory is converted to nil by the stdlib and only
  skips that subtree.  `fsWalkDir` is the `fs.WalkDir` entry point for a
  root (whose `DirEntry.Name()` is `"."`, hence the `d.Name() != "."`
  guard); on a `ReadDir` failure the callback is invoked a second time
  with the error, which registers the root again and continues with zero
  children.
* `startRun` embeds `Start` (fsnotify.go:59-82) together with
  `waitForLima` (85-103) and `watch` (145-222) as a trace of the
  observable actions (`Act`) performed during a run over an environment
  `Env` of external behaviours: the context value for the guest key (the
  type assertion yields `none` when the value is absent or of the wrong
  type), the outcome of each iteration of `waitForLima`'s select, the
  result of `limautil.InstanceConfig` together with each mount's
  `CleanPath`, whether `fsnotify.NewWatcher` succeeds, the tree found
  under each watch root, and the channel deliveries of the event loop.
  The `alive` flag is false at creation and assigned only at
  fsnotify.go:182 (`Act.setAlive` in the trace); `aliveAt tr n` is its
  value after the first `n` actions, and `Alive` is the accessor at
  fsnotify.go:40-48.
-/

/-- Guest execution capability (`environment.GuestActions`): the model of
`RunQuiet`, mapping the command/argument vector to `none` (success) or
`some msg` (error). -/
def GuestActions : Type := List String → Option String

/-- `fsnotify.Event`: an operation bitmask and a path. -/
structure Event where
  Name : String
  Op : Nat
deriving DecidableEq, Repr

/-- `fsnotify.Create` -/
def opCreate : Nat := 1
/-- `fsnotify.Write` -/
def opWrite : Nat := 2
/-- `fsnotify.Remove` -/
def opRemove : Nat := 4
/-- `fsnotify.Rename` -/
def opRename : Nat := 8
/-- `fsnotify.Chmod` -/
def opChmod : Nat := 16

/-- The filter at fsnotify.go:201: `ev.Op&fsnotify.Write == fsnotify.Write`. -/
def isWriteOp (op : Nat) : Bool := op &&& opWrite == opWrite

/-- Result of one `Dispatch` call: the paths handed to `Touch` (in goroutine
spawn order) and the logged drop count of the overflow branch. -/
structure DispatchOut where
  touches : List String
  discardLogged : Option Nat
deriving DecidableEq, Repr

/-- `Dispatch` (fsnotify.go:224-246): empty batches return at once; batches
longer than 10 are truncated to their first 10 events with the excess count
logged; each remaining event's `Name` is handed to `Touch`. -/
def Dispatch (events : List Event) : DispatchOut :=
  let l := events.length
  if l = 0 then ⟨[], none⟩
  else if 10 < l then ⟨(events.take 10).map Event.Name, some (l - 10)⟩
  else ⟨events.map Event.Name, none⟩

/-- `Touch` (fsnotify.go:248-250): `guest.RunQuiet("touch", file)`. -/
def Touch (guest : GuestActions) (file : String) : Option String :=
  guest ["touch", file]

/-- The per-event goroutines spawned by one `Dispatch` call: each handed-off
path paired with the outcome of its own `Touch`, which is discarded by the
goroutine body. -/
def dispatchOutcomes (guest : GuestActions) (events : List Event) :
    List (String × Option String) :=
  (Dispatch events).touches.map fun file => (file, Touch guest file)

/-- One delivery observed by the `select` of the aggregation loop. -/
inductive Msg where
  | ev (e : Event)
  | evClosed
  | err
  | errClosed
  | timer
  | cancel
deriving DecidableEq, Repr

/-- How one pass of the inner `loop` (fsnotify.go:190-219) ends. -/
inductive LoopExit where
  | dispatched (batch : List Event) (rest : List Msg)
  | cancelled
  | fatal
  | starved
deriving DecidableEq, Repr

/-- One pass of the collection loop: write events are appended to the batch,
other events and watch errors are dropped, a closed channel is fatal, the
timer hands the batch to `Dispatch`, and cancellation returns nil. -/
def collectWindow : List Msg → List Event → LoopExit
  | [], _ => .starved
  | .ev e :: rest, events =>
    if isWriteOp e.Op then collectWindow rest (events ++ [e])
    else collectWindow rest events
  | .evClosed :: _, _ => .fatal
  | .err :: rest, events => collectWindow rest events
  | .errClosed :: _, _ => .fatal
  | .timer :: rest, events => .dispatched events rest
  | .cancel :: _, _ => .cancelled

/-- The events of the current window, in arrival order, up to the message
that ends the window. -/
def windowEvents : List Msg → List Event
  | .ev e :: rest => e :: windowEvents rest
  | .err :: rest => windowEvents rest
  | _ => []

/-- How the outer aggregation `for` (fsnotify.go:186) ends on a finite
delivery sequence. -/
inductive LoopEnd where
  | cancelled
  | chanClosed
  | blocked
deriving DecidableEq, Repr

/-- The outer aggregation loop with explicit fuel: the list of batches
handed to `Dispatch`, in the order their windows closed. -/
def aggregateAux : Nat → List Msg → List (List Event) × LoopEnd
  | 0, _ => ([], .blocked)
  | fuel + 1, msgs =>
    match collectWindow msgs [] with
    | .dispatched batch rest =>
      let r := aggregateAux fuel rest
      (batch :: r.1, r.2)
    | .cancelled => ([], .cancelled)
    | .fatal => ([], .chanClosed)
    | .starved => ([], .blocked)

/-- The aggregation loop on a finite delivery sequence; `msgs.length + 1`
fuel always outlasts the input, since every window consumes at least its
closing message. -/
def aggregate (msgs : List Msg) : List (List Event) × LoopEnd :=
  aggregateAux (msgs.length + 1) msgs

mutual
/-- A node of a host directory tree as seen through `os.DirFS`:
a directory (with `readErr = true` when `os.ReadDir` on it fails), a plain
file, or a symbolic link together with the forest its target would expose. -/
inductive FNode where
  | dir (name : String) (readErr : Bool) (children : FForest)
  | file (name : String)
  | symlink (name : String) (target : FForest)
/-- A sibling list, in the sorted order `os.ReadDir` returns. -/
inductive FForest where
  | nil
  | cons (hd : FNode) (tl : FForest)
end

/-- `strings.HasPrefix(name, ".")`: the first character is a dot. -/
def hasDotHead (s : String) : Bool :=
  match s.data with
  | [] => false
  | c :: _ => c == '.'

/-- The skip test at fsnotify.go:161: `d.Name() != "." &&
strings.HasPrefix(d.Name(), ".")`. -/
def hiddenB (s : String) : Bool := s != "." && hasDotHead s

/-- `FNode.name`: the entry's `d.Name()`. -/
def FNode.name : FNode → String
  | .dir n _ _ => n
  | .file n => n
  | .symlink n _ => n

/-- Outcome of walking one sibling list: the `watcher.Add` calls, the paths
the callback was invoked on, and whether a `filepath.SkipDir` from a
non-directory entry broke out of the sibling loop. -/
structure WalkAcc where
  adds : List (List String)
  visited : List (List String)
  brokeOut : Bool
deriving DecidableEq, Repr

/-- The recursion of stdlib `fs.walkDir` over a sibling list, specialised to
the callback at fsnotify.go:156-174.  A hidden directory is `SkipDir`:
its subtree is skipped and siblings continue.  A non-hidden directory is
registered; if its `ReadDir` fails, the callback runs a second time with
the error and registers it again, with zero children.  A hidden
non-directory entry returns `SkipDir`, which the parent loop turns into a
`break`, dropping all later siblings.  A symlink is never a directory for
`DirEntry.IsDir`, so its target is never read. -/
def walkEntries : FForest → List String → WalkAcc
  | .nil, _ => ⟨[], [], false⟩
  | .cons (.dir n re cs) tl, parent =>
    let path := parent ++ [n]
    if hiddenB n then
      let r := walkEntries tl parent
      ⟨r.adds, path :: r.visited, r.brokeOut⟩
    else if re then
      let r := walkEntries tl parent
      ⟨path :: path :: r.adds, path :: path :: r.visited, r.brokeOut⟩
    else
      let sub := walkEntries cs path
      let r := walkEntries tl parent
      ⟨path :: (sub.adds ++ r.adds), path :: (sub.visited ++ r.visited), r.brokeOut⟩
  | .cons (.file n) tl, parent =>
    let path := parent ++ [n]
    if hiddenB n then ⟨[], [path], true⟩
    else
      let r := walkEntries tl parent
      ⟨r.adds, path :: r.visited, r.brokeOut⟩
  | .cons (.symlink n _) tl, parent =>
    let path := parent ++ [n]
    if hiddenB n then ⟨[], [path], true⟩
    else
      let r := walkEntries tl parent
      ⟨r.adds, path :: r.visited, r.brokeOut⟩

/-- `fs.WalkDir(os.DirFS(dir), ".", fn)` for one watch root, whose entry has
`Name() = "."`: the `watcher.Add` calls and visited paths.  A `SkipDir`
escaping the root is converted to nil by `fs.WalkDir`, and this callback
never produces another error, so the walk as a whole cannot fail. -/
def fsWalkDir : FNode → List (List String) × List (List String)
  | .dir n re cs =>
    if hiddenB n then ([], [[]])
    else if re then ([[], []], [[], []])
    else
      let sub := walkEntries cs []
      ([] :: sub.adds, [] :: sub.visited)
  | .file _ => ([], [[]])
  | .symlink _ _ => ([], [[]])

example : (fsWalkDir (.dir "." false (.cons (.file ".a") (.cons (.dir "b" false .nil) .nil)))).1 = [[]] := by decide
example : (fsWalkDir (.dir "." false (.cons (.dir "b" false .nil) (.cons (.file ".a") .nil)))).1 = [[], ["b"]] := by decide
example : Dispatch [⟨"x", 2⟩] = ⟨["x"], none⟩ := by decide
example : aggregate [.ev ⟨"x", 2⟩, .ev ⟨"y", 1⟩, .timer, .cancel] = ([[⟨"x", 2⟩]], .cancelled) := by decide

/-- Outcome of one iteration of the `select` in `waitForLima`
(fsnotify.go:93-101): the context was cancelled, or the 5-second timer
fired and the instance poll reported `err == nil && i.Running()`. -/
inductive WaitStep where
  | ctxDone
  | poll (running : Bool)
deriving DecidableEq, Repr

/-- How `waitForLima` returns (it has no return value in the source):
via cancellation, via a successful poll, or not yet (finite model input
exhausted while the loop still blocks). -/
inductive WaitResult where
  | viaCancel
  | viaRunning
  | waiting
deriving DecidableEq, Repr

/-- `waitForLima` (fsnotify.go:85-103): loop until the context is done or a
poll reports the instance running. -/
def waitForLima : List WaitStep → WaitResult
  | [] => .waiting
  | .ctxDone :: _ => .viaCancel
  | .poll true :: _ => .viaRunning
  | .poll false :: rest => waitForLima rest

/-- `strings.TrimSuffix(p, "/")` (fsnotify.go:78): drop one trailing slash
when present. -/
def trimSuffixSlash (p : String) : String :=
  match p.data.getLast? with
  | some c => if c == '/' then String.mk p.data.dropLast else p
  | none => p

/-- The mount loop of `Start` (fsnotify.go:73-79): each entry is the result
of `mount.CleanPath()`; the first failure aborts with the wrapping error,
otherwise every cleaned path joins the watch list with its trailing slash
trimmed. -/
def resolveMounts : List (Except String String) → Except String (List String)
  | [] => .ok []
  | .error _ :: _ => .error "error retrieving mount path"
  | .ok p :: rest => (resolveMounts rest).map (trimSuffixSlash p :: ·)

/-- An observable action of a `Start` run. -/
inductive Act where
  | pollLima (running : Bool)
  | resolveConfig
  | newWatcher
  | walkRoot (dir : String)
  | register (dir : String) (path : List String)
  | setAlive
  | dispatchBatch (events : List Event)
deriving DecidableEq, Repr

/-- The poll actions performed inside `waitForLima` before it returns or the
model input runs out. -/
def waitActs : List WaitStep → List Act
  | [] => []
  | .ctxDone :: _ => []
  | .poll true :: _ => [.pollLima true]
  | .poll false :: rest => .pollLima false :: waitActs rest

/-- The traversal loop at fsnotify.go:154-179: for each watch root, one
`fs.WalkDir` whose `watcher.Add` calls are recorded against that root. -/
def walkActs (fsys : String → FNode) (dirs : List String) : List Act :=
  dirs.flatMap fun d => Act.walkRoot d :: ((fsWalkDir (fsys d)).1.map (Act.register d))

/-- How `Start` ends on the modelled environment: with an error, with `nil`
(cancellation inside the event loop), or still running (model input
exhausted). -/
inductive StartResult where
  | errored (msg : String)
  | finished
  | running
deriving DecidableEq, Repr

/-- Mapping the event loop's end to `Start`'s return value: cancellation
returns nil (fsnotify.go:215-216), a closed channel is the fatal
`watcher channel closed` error (fsnotify.go:194-196, 205-207). -/
def loopResult : LoopEnd → StartResult
  | .cancelled => .finished
  | .chanClosed => .errored "watcher channel closed"
  | .blocked => .running

/-- The external behaviours a `Start` run consumes. -/
structure Env where
  ctxGuest : Option GuestActions
  waitSteps : List WaitStep
  instConfig : Except String (List (Except String String))
  newWatcherOk : Bool
  fsys : String → FNode
  msgs : List Msg

/-- The remainder of `Start` once `waitForLima` has returned — which it does
both on cancellation and on a running poll: `limautil.InstanceConfig`
(fsnotify.go:68-71), the mount loop (73-79), and `watch` — watcher
creation, traversal of every root, the `alive` assignment, and the
aggregation loop. -/
def afterWait (env : Env) : List Act × StartResult :=
  match env.instConfig with
  | .error _ => (waitActs env.waitSteps ++ [.resolveConfig], .errored "error retrieving config")
  | .ok mounts =>
    match resolveMounts mounts with
    | .error e => (waitActs env.waitSteps ++ [.resolveConfig], .errored e)
    | .ok dirs =>
      if env.newWatcherOk then
        (waitActs env.waitSteps ++ [.resolveConfig, .newWatcher]
          ++ walkActs env.fsys dirs ++ [.setAlive]
          ++ (aggregate env.msgs).1.map Act.dispatchBatch,
         loopResult (aggregate env.msgs).2)
      else
        (waitActs env.waitSteps ++ [.resolveConfig, .newWatcher],
         .errored "error creating watcher")

/-- `Start` (fsnotify.go:59-82) followed by `watch` (fsnotify.go:145-222) as
a trace of actions plus the final result.  The missing/ill-typed guest
value aborts first; `waitForLima` returns on cancellation or on a running
poll and `Start` continues either way into `afterWait`. -/
def startRun (env : Env) : List Act × StartResult :=
  match env.ctxGuest with
  | none => ([], .errored "environment.GuestAction missing in context")
  | some _ =>
    match waitForLima env.waitSteps with
    | .waiting => (waitActs env.waitSteps, .running)
    | _ => afterWait env

/-- `Alive` (fsnotify.go:40-48): success exactly when the flag is set. -/
def Alive (alive : Bool) : Option String :=
  if alive then none else some "not running"

/-- The value of the `alive` flag after the first `n` actions of a trace:
false at creation, true from the single assignment at fsnotify.go:182 on. -/
def aliveAt (tr : List Act) (n : Nat) : Bool :=
  decide (Act.setAlive ∈ tr.take n)

example :
    startRun ⟨some (fun _ => none), [.poll false, .poll true], .ok [.ok "/tmp/"], true,
      (fun _ => .dir "." false (.cons (.dir "b" false .nil) .nil)), [.ev ⟨"b/x", 2⟩, .timer, .cancel]⟩
    = ([.pollLima false, .pollLima true, .resolveConfig, .newWatcher,
        .walkRoot "/tmp", .register "/tmp" [], .register "/tmp" ["b"], .setAlive,
        .dispatchBatch [⟨"b/x", 2⟩]], .finished) := by decide

example :
    startRun ⟨some (fun _ => none), [.ctxDone], .ok [.ok "/tmp"], true,
      (fun _ => .dir "." false .nil), [.cancel]⟩
    = ([.resolveConfig, .newWatcher, .walkRoot "/tmp", .register "/tmp" [], .setAlive], .finished) := by decide


/-- Appending a non-hidden component keeps a path free of hidden names. -/
theorem clean_append {parent : List String} {n : String}
    (hp : ∀ c ∈ parent, hiddenB c = false) (hn : hiddenB n = false) :
    ∀ c ∈ parent ++ [n], hiddenB c = false := by
  intro c hc
  rcases List.mem_append.mp hc with h | h
  · exact hp c h
  · rcases List.mem_singleton.mp h with rfl
    exact hn

/-- A `Bool` that is not `true` is `false`. -/
theorem bool_eq_false {b : Bool} (h : ¬b = true) : b = false := by
  cases b
  · rfl
  · exact absurd rfl h

/-- Every path passed to `watcher.Add` below a hidden-free parent is itself
free of hidden components: hidden directories are skipped before
registration and before descent. -/
theorem walkEntries_adds_clean : ∀ (cs : FForest) (parent : List String),
    (∀ c ∈ parent, hiddenB c = false) →
    ∀ p ∈ (walkEntries cs parent).adds, ∀ c ∈ p, hiddenB c = false := by
  intro cs parent
  induction cs, parent using walkEntries.induct with
  | case1 parent => intro _; simp [walkEntries]
  | case2 n re cs tl parent h ih =>
    intro hp
    simp only [walkEntries, h, if_true]
    exact ih hp
  | case3 n cs tl parent h ih =>
    intro hp
    have hn : hiddenB n = false := bool_eq_false h
    intro p hpmem
    simp only [walkEntries, hn, Bool.false_eq_true, if_false, if_true] at hpmem
    rcases List.mem_cons.mp hpmem with rfl | hpmem
    · exact clean_append hp hn
    · rcases List.mem_cons.mp hpmem with rfl | hpmem
      · exact clean_append hp hn
      · exact ih hp p hpmem
  | case4 n re cs tl parent path h1 h2 ihsub ih =>
    intro hp
    have hn : hiddenB n = false := bool_eq_false h1
    have hre : re = false := bool_eq_false h2
    intro p hpmem
    simp only [walkEntries, hn, hre, Bool.false_eq_true, if_false] at hpmem
    rcases List.mem_cons.mp hpmem with rfl | hpmem
    · exact clean_append hp hn
    · rcases List.mem_append.mp hpmem with hpmem | hpmem
      · exact ihsub (clean_append hp hn) p hpmem
      · exact ih hp p hpmem
  | case5 n tl parent h => intro _; simp [walkEntries, h]
  | case6 n tl parent h ih =>
    intro hp
    have hn : hiddenB n = false := bool_eq_false h
    simp only [walkEntries, hn, Bool.false_eq_true, if_false]
    exact ih hp
  | case7 n target tl parent h => intro _; simp [walkEntries, h]
  | case8 n target tl parent h ih =>
    intro hp
    have hn : hiddenB n = false := bool_eq_false h
    simp only [walkEntries, hn, Bool.false_eq_true, if_false]
    exact ih hp

/-- C4 (amended): during the live traversal (`fs.WalkDir` in `watch`), no
directory whose own name or any ancestor's name begins with a dot is ever
registered with the watch primitive; a hidden directory is not descended
into and its exclusion does not prevent registration of its siblings; but
a hidden non-directory entry makes the walk break out of its parent's
entry list, dropping all later siblings. -/
theorem claim_C4_theorem :
    (∀ (cs : FForest) (parent : List String),
        (∀ c ∈ parent, hiddenB c = false) →
        ∀ p ∈ (walkEntries cs parent).adds, ∀ c ∈ p, hiddenB c = false)
    ∧ (∀ root : FNode, ∀ p ∈ (fsWalkDir root).1, ∀ c ∈ p, hiddenB c = false)
    ∧ (∀ (n : String) (re : Bool) (cs tl : FForest) (parent : List String),
        hiddenB n = true →
        walkEntries (.cons (.dir n re cs) tl) parent
          = ⟨(walkEntries tl parent).adds,
             (parent ++ [n]) :: (walkEntries tl parent).visited,
             (walkEntries tl parent).brokeOut⟩)
    ∧ (∀ (n : String) (tl : FForest) (parent : List String),
        hiddenB n = true →
        walkEntries (.cons (.file n) tl) parent = ⟨[], [parent ++ [n]], true⟩) := by
  refine ⟨walkEntries_adds_clean, ?_, ?_, ?_⟩
  · intro root p hpmem
    match root with
    | .file _ => simp [fsWalkDir] at hpmem
    | .symlink _ _ => simp [fsWalkDir] at hpmem
    | .dir n re cs =>
      by_cases hn : hiddenB n = true
      · simp [fsWalkDir, hn] at hpmem
      · have hn2 : hiddenB n = false := bool_eq_false hn
        by_cases hre : re = true
        · simp only [fsWalkDir, hn2, hre, Bool.false_eq_true, if_false, if_true] at hpmem
          rcases List.mem_cons.mp hpmem with rfl | hpmem
          · simp
          · rcases List.mem_cons.mp hpmem with rfl | hpmem
            · simp
            · simp at hpmem
        · have hre2 : re = false := bool_eq_false hre
          simp only [fsWalkDir, hn2, hre2, Bool.false_eq_true, if_false] at hpmem
          rcases List.mem_cons.mp hpmem with rfl | hpmem
          · simp
          · exact walkEntries_adds_clean cs [] (by simp) p hpmem
  · intro n re cs tl parent h
    simp [walkEntries, h]
  · intro n tl parent h
    simp [walkEntries, h]

/-- C4 witness: the amended statement applied at a concrete hidden-free
parent and forest. -/
theorem claim_C4_witness :
    (∀ c ∈ (["r"] : List String), hiddenB c = false)
    ∧ ∀ p ∈ (walkEntries (.cons (.dir "b" false .nil) .nil) ["r"]).adds,
        ∀ c ∈ p, hiddenB c = false :=
  ⟨by decide, claim_C4_theorem.1 (.cons (.dir "b" false .nil) .nil) ["r"] (by decide)⟩

/-- C4 counterexample: the watch root contains the hidden file `.a` and the
eligible non-hidden directory `b` (in the sorted order `os.ReadDir`
returns).  The callback answers `filepath.SkipDir` for `.a`; since `.a` is
not a directory, `fs.WalkDir` abandons the rest of the root's entries, so
the eligible sibling `b` is never registered — only the root is. -/
theorem claim_C4_counterexample :
    hiddenB "b" = false
    ∧ hiddenB ".a" = true
    ∧ (fsWalkDir (.dir "." false (.cons (.file ".a") (.cons (.dir "b" false .nil) .nil)))).1 = [[]]
    ∧ ["b"] ∉ (fsWalkDir (.dir "." false (.cons (.file ".a") (.cons (.dir "b" false .nil) .nil)))).1 := by
  refine ⟨by decide, by decide, by decide, by decide⟩

/-- C5: a directory that is a symbolic link is never registered and never
descended into: a symlink entry contributes no `watcher.Add` call, the
walk result does not depend on the forest behind the link target, and the
only path visited for it is the link itself — its descendants are never
visited. -/
theorem claim_C5 (n : String) (target tl : FForest) (parent : List String) :
    (∀ target2 : FForest,
        walkEntries (.cons (.symlink n target) tl) parent
          = walkEntries (.cons (.symlink n target2) tl) parent)
    ∧ (walkEntries (.cons (.symlink n target) tl) parent).adds
        = (if hiddenB n then [] else (walkEntries tl parent).adds)
    ∧ (walkEntries (.cons (.symlink n target) tl) parent).visited
        = (parent ++ [n]) :: (if hiddenB n then [] else (walkEntries tl parent).visited) := by
  by_cases h : hiddenB n = true
  · refine ⟨fun target2 => ?_, ?_, ?_⟩ <;> simp [walkEntries, h]
  · have h2 : hiddenB n = false := bool_eq_false h
    refine ⟨fun target2 => ?_, ?_, ?_⟩ <;> simp [walkEntries, h2]

/-- C8: a watch root whose child enumeration fails is still registered (the
callback registers it on its first visit, and a second time when it is
re-invoked with the `ReadDir` error); the failure contributes zero
children and is not fatal: every other root in the watch list is walked
exactly as if the failing root were absent. -/
theorem claim_C8 (fsys : String → FNode) (dirs1 dirs2 : List String) (d : String) (cs : FForest)
    (h : fsys d = FNode.dir "." true cs) :
    (fsWalkDir (FNode.dir "." true cs)).1 = [[], []]
    ∧ walkActs fsys (dirs1 ++ d :: dirs2)
        = walkActs fsys dirs1
          ++ [Act.walkRoot d, Act.register d [], Act.register d []]
          ++ walkActs fsys dirs2
    ∧ Act.register d [] ∈ walkActs fsys (dirs1 ++ d :: dirs2) := by
  have hdot : hiddenB "." = false := by decide
  have hroot : (fsWalkDir (FNode.dir "." true cs)).1 = [[], []] := by
    simp [fsWalkDir, hdot]
  have hsplit : walkActs fsys (dirs1 ++ d :: dirs2)
      = walkActs fsys dirs1
        ++ [Act.walkRoot d, Act.register d [], Act.register d []]
        ++ walkActs fsys dirs2 := by
    unfold walkActs
    rw [List.flatMap_append, List.flatMap_cons, h, hroot]
    simp
  refine ⟨hroot, hsplit, ?_⟩
  rw [hsplit]
  simp

/-- C8 witness: a concrete root list around a root whose enumeration
fails. -/
theorem claim_C8_witness :
    Act.register "/a" [] ∈
      walkActs (fun _ => FNode.dir "." true .nil) (["/z"] ++ "/a" :: []) :=
  (claim_C8 (fun _ => FNode.dir "." true .nil) ["/z"] [] "/a" .nil rfl).2.2

/-- The batch retained by `Dispatch` after the overflow cap: the whole batch
for up to 10 events, its first 10 otherwise. -/
theorem dispatch_touches_eq (events : List Event) :
    (Dispatch events).touches
      = (if 10 < events.length then events.take 10 else events).map Event.Name := by
  unfold Dispatch
  by_cases h0 : events.length = 0
  · have : events = [] := List.length_eq_zero.mp h0
    subst this
    simp
  · by_cases h10 : 10 < events.length
    · simp [h0, h10]
    · simp [h0, h10]

/-- C1: a dispatched batch never contains more than 10 events; on overflow
exactly the first 10 events in arrival order are retained and the excess
count is logged. -/
theorem claim_C1 (events : List Event) :
    (Dispatch events).touches.length ≤ 10
    ∧ (10 < events.length →
        (Dispatch events).touches = (events.take 10).map Event.Name
        ∧ (Dispatch events).discardLogged = some (events.length - 10)) := by
  constructor
  · rw [dispatch_touches_eq]
    by_cases h10 : 10 < events.length
    · simp [h10]
    · simp only [h10, if_false, List.length_map]
      omega
  · intro h10
    constructor
    · rw [dispatch_touches_eq]
      simp [h10]
    · unfold Dispatch
      have h0 : ¬events.length = 0 := by omega
      simp [h0, h10]

/-- C1 witness: eleven write events; the first ten survive and a drop of one
is logged. -/
theorem claim_C1_witness :
    (Dispatch (List.replicate 11 (⟨"f", 2⟩ : Event))).touches = List.replicate 10 "f"
    ∧ (Dispatch (List.replicate 11 (⟨"f", 2⟩ : Event))).discardLogged = some 1 := by
  have h := (claim_C1 (List.replicate 11 ⟨"f", 2⟩)).2 (by decide)
  refine ⟨?_, ?_⟩
  · rw [h.1]; decide
  · rw [h.2]; decide

/-- C7: each event retained by the overflow cap produces exactly one remote
touch, whose path equals the event's path, in spawn order; and the set of
spawned touches does not depend on any touch's outcome (the guest
capability can be replaced arbitrarily without changing which paths are
touched). -/
theorem claim_C7 (guest : GuestActions) (events : List Event) :
    dispatchOutcomes guest events
      = (if 10 < events.length then events.take 10 else events).map
          (fun ev => (ev.Name, Touch guest ev.Name))
    ∧ ∀ guest2 : GuestActions,
        (dispatchOutcomes guest2 events).map Prod.fst
          = (dispatchOutcomes guest events).map Prod.fst := by
  have key : ∀ g : GuestActions,
      dispatchOutcomes g events
        = (if 10 < events.length then events.take 10 else events).map
            (fun ev => (ev.Name, Touch g ev.Name)) := by
    intro g
    unfold dispatchOutcomes
    rw [dispatch_touches_eq, List.map_map]
    rfl
  refine ⟨key guest, fun guest2 => ?_⟩
  rw [key guest, key guest2, List.map_map, List.map_map]
  rfl

/-- C9: when the guest execution capability is absent from the context (or
present with the wrong type, so the type assertion fails), `Start` returns
its error before any poll, mount resolution or traversal: the trace is
empty. -/
theorem claim_C9 (env : Env) (h : env.ctxGuest = none) :
    startRun env = ([], .errored "environment.GuestAction missing in context") := by
  unfold startRun
  rw [h]

/-- C9 witness: a concrete environment with no guest value in the context. -/
theorem claim_C9_witness :
    startRun ⟨none, [.poll false], .ok [], true, (fun _ => .dir "." false .nil), []⟩
      = ([], .errored "environment.GuestAction missing in context") :=
  claim_C9 ⟨none, [.poll false], .ok [], true, (fun _ => .dir "." false .nil), []⟩ rfl

/-- C10: an empty batch makes `Dispatch` return at once: no touch is spawned
and the overflow branch is not taken. -/
theorem claim_C10 :
    Dispatch [] = ⟨[], none⟩ ∧ ∀ guest : GuestActions, dispatchOutcomes guest [] = [] :=
  ⟨rfl, fun _ => rfl⟩

/-- One collection window that ends in a dispatch hands over exactly the
accumulated events followed by the write-filtered window arrivals, in
arrival order, and consumes a prefix of the deliveries. -/
theorem collectWindow_dispatched : ∀ (msgs : List Msg) (events batch : List Event) (rest : List Msg),
    collectWindow msgs events = .dispatched batch rest →
    batch = events ++ (windowEvents msgs).filter (fun e => isWriteOp e.Op)
    ∧ ∃ pre, msgs = pre ++ rest := by
  intro msgs
  induction msgs with
  | nil => intro events batch rest h; simp [collectWindow] at h
  | cons m t ih =>
    intro events batch rest h
    match m with
    | .ev e =>
      by_cases hw : isWriteOp e.Op = true
      · simp only [collectWindow, hw, if_true] at h
        obtain ⟨h1, pre, h2⟩ := ih _ _ _ h
        refine ⟨?_, .ev e :: pre, by simp [h2]⟩
        rw [h1]
        simp [windowEvents, hw]
      · have hw2 : isWriteOp e.Op = false := bool_eq_false hw
        simp only [collectWindow, hw2, Bool.false_eq_true, if_false] at h
        obtain ⟨h1, pre, h2⟩ := ih _ _ _ h
        refine ⟨?_, .ev e :: pre, by simp [h2]⟩
        rw [h1]
        simp [windowEvents, hw2]
    | .evClosed => simp [collectWindow] at h
    | .err =>
      simp only [collectWindow] at h
      obtain ⟨h1, pre, h2⟩ := ih _ _ _ h
      refine ⟨?_, .err :: pre, by simp [h2]⟩
      rw [h1]
      simp [windowEvents]
    | .errClosed => simp [collectWindow] at h
    | .timer =>
      simp only [collectWindow, LoopExit.dispatched.injEq] at h
      obtain ⟨rfl, rfl⟩ := h
      refine ⟨?_, [.timer], rfl⟩
      simp [windowEvents]
    | .cancel => simp [collectWindow] at h

/-- Every batch the aggregation loop hands to `Dispatch` is the
write-filtered arrival sequence of some window of the delivery stream. -/
theorem aggregateAux_batches : ∀ (fuel : Nat) (msgs : List Msg) (b : List Event),
    b ∈ (aggregateAux fuel msgs).1 →
    ∃ pre sub, msgs = pre ++ sub
      ∧ b = (windowEvents sub).filter (fun e => isWriteOp e.Op) := by
  intro fuel
  induction fuel with
  | zero => intro msgs b h; simp [aggregateAux] at h
  | succ fuel ih =>
    intro msgs b h
    rw [aggregateAux] at h
    cases hcw : collectWindow msgs [] with
    | dispatched batch rest =>
      rw [hcw] at h
      rcases List.mem_cons.mp h with rfl | h
      · obtain ⟨h1, pre, h2⟩ := collectWindow_dispatched msgs [] _ _ hcw
        exact ⟨[], msgs, by simp, by simpa using h1⟩
      · obtain ⟨pre2, sub, h3, h4⟩ := ih rest b h
        obtain ⟨_, pre1, h2⟩ := collectWindow_dispatched msgs [] _ _ hcw
        exact ⟨pre1 ++ pre2, sub, by rw [h2, h3, List.append_assoc], h4⟩
    | cancelled => rw [hcw] at h; simp at h
    | fatal => rw [hcw] at h; simp at h
    | starved => rw [hcw] at h; simp at h

/-- C6: only write-class notifications are appended during collection: every
batch handed to `Dispatch` is exactly the write-filtered arrival sequence
of its window, so non-write kinds never appear in a dispatched batch and
in-batch order is arrival order. -/
theorem claim_C6 (msgs : List Msg) (b : List Event) (h : b ∈ (aggregate msgs).1) :
    (∀ e ∈ b, isWriteOp e.Op = true)
    ∧ ∃ pre sub, msgs = pre ++ sub
        ∧ b = (windowEvents sub).filter (fun e => isWriteOp e.Op) := by
  obtain ⟨pre, sub, h1, h2⟩ := aggregateAux_batches (msgs.length + 1) msgs b h
  refine ⟨?_, pre, sub, h1, h2⟩
  intro e he
  rw [h2] at he
  exact (List.mem_filter.mp he).2

/-- C6 witness: a window with one write event, one create-only event and one
watch error delivers the single write event. -/
theorem claim_C6_witness :
    ([⟨"/src/a.go", 2⟩] : List Event)
      ∈ (aggregate [.ev ⟨"/src/a.go", 2⟩, .ev ⟨"/x", 1⟩, .err, .timer, .cancel]).1
    ∧ ∀ e ∈ ([⟨"/src/a.go", 2⟩] : List Event), isWriteOp e.Op = true :=
  ⟨by decide,
   (claim_C6 [.ev ⟨"/src/a.go", 2⟩, .ev ⟨"/x", 1⟩, .err, .timer, .cancel]
      [⟨"/src/a.go", 2⟩] (by decide)).1⟩

/-- Whatever the configuration, mounts and watcher do, the run after
`waitForLima` always performs the `limautil.InstanceConfig` call. -/
theorem resolveConfig_mem_afterWait (env : Env) : Act.resolveConfig ∈ (afterWait env).1 := by
  cases hic : env.instConfig with
  | error e => simp [afterWait, hic]
  | ok mounts =>
    cases hrm : resolveMounts mounts with
    | error e => simp [afterWait, hic, hrm]
    | ok dirs =>
      by_cases hnw : env.newWatcherOk = true
      · simp [afterWait, hic, hrm, hnw]
      · simp [afterWait, hic, hrm, bool_eq_false hnw]

/-- C2 (amended): when cancellation fires while `Start` is waiting for the
guest, the readiness gate does return immediately and without error (no
further poll happens), but startup is not aborted: `Start` still performs
mount resolution, and — when configuration, mounts and watcher creation
succeed — still traverses every watch root; the cancellation is honoured
only later, by the aggregation loop. -/
theorem claim_C2_theorem (env : Env) (g : GuestActions) (rest : List WaitStep)
    (hg : env.ctxGuest = some g) (hw : env.waitSteps = WaitStep.ctxDone :: rest) :
    waitForLima env.waitSteps = WaitResult.viaCancel
    ∧ waitActs env.waitSteps = []
    ∧ Act.resolveConfig ∈ (startRun env).1
    ∧ ∀ (mounts : List (Except String String)) (dirs : List String),
        env.instConfig = Except.ok mounts → resolveMounts mounts = Except.ok dirs →
        env.newWatcherOk = true →
        ∀ d ∈ dirs, Act.walkRoot d ∈ (startRun env).1 := by
  have hwl : waitForLima env.waitSteps = .viaCancel := by rw [hw]; rfl
  have hwa : waitActs env.waitSteps = [] := by rw [hw]; rfl
  have hrun : startRun env = afterWait env := by
    unfold startRun
    rw [hg, hwl]
  refine ⟨hwl, hwa, ?_, ?_⟩
  · rw [hrun]
    exact resolveConfig_mem_afterWait env
  · intro mounts dirs hic hrm hnw d hd
    rw [hrun]
    have hmem : Act.walkRoot d ∈ walkActs env.fsys dirs := by
      unfold walkActs
      exact List.mem_flatMap.mpr ⟨d, hd, List.mem_cons_self _ _⟩
    simp [afterWait, hic, hrm, hnw, hmem]

/-- A run in which the guest is present, the context is cancelled before the
first poll, one mount resolves to `/tmp`, and the watcher starts. -/
def envC2 : Env :=
  ⟨some (fun _ => none), [.ctxDone], .ok [.ok "/tmp"], true,
   (fun _ => .dir "." false .nil), [.cancel]⟩

/-- C2 counterexample: cancellation fires while `Start` waits, yet the run
still resolves the mount configuration and still walks the watch root
`/tmp` — mount resolution and directory traversal do happen after the
gate returns, contradicting the claim; `Start` then returns without error
from the event loop. -/
theorem claim_C2_counterexample :
    waitForLima envC2.waitSteps = WaitResult.viaCancel
    ∧ Act.resolveConfig ∈ (startRun envC2).1
    ∧ Act.walkRoot "/tmp" ∈ (startRun envC2).1
    ∧ (startRun envC2).2 = StartResult.finished := by
  refine ⟨by decide, by decide, by decide, by decide⟩

/-- C2 witness: the amended statement at the concrete cancelled
environment. -/
theorem claim_C2_witness :
    waitActs envC2.waitSteps = [] ∧ Act.walkRoot "/tmp" ∈ (startRun envC2).1 :=
  ⟨(claim_C2_theorem envC2 (fun _ => none) [] rfl rfl).2.1,
   (claim_C2_theorem envC2 (fun _ => none) [] rfl rfl).2.2.2
     [.ok "/tmp"] ["/tmp"] rfl rfl rfl "/tmp" (by decide)⟩

/-- `waitForLima` performs polls only; it never touches the alive flag. -/
theorem setAlive_not_mem_waitActs : ∀ ws : List WaitStep, Act.setAlive ∉ waitActs ws := by
  intro ws
  induction ws with
  | nil => simp [waitActs]
  | cons s rest ih =>
    match s with
    | .ctxDone => simp [waitActs]
    | .poll true => simp [waitActs]
    | .poll false =>
      simp only [waitActs, List.mem_cons, not_or]
      exact ⟨by simp, ih⟩

/-- The traversal loop registers directories only; it never touches the
alive flag. -/
theorem setAlive_not_mem_walkActs (fsys : String → FNode) (dirs : List String) :
    Act.setAlive ∉ walkActs fsys dirs := by
  intro h
  obtain ⟨d, _, hmem⟩ := List.mem_flatMap.mp h
  rcases List.mem_cons.mp hmem with h1 | h1
  · exact absurd h1 (by simp)
  · obtain ⟨p, _, h2⟩ := List.mem_map.mp h1
    exact absurd h2 (by simp)

/-- The aggregation loop only dispatches batches. -/
theorem loopActs_only_dispatch (msgs : List Msg) (a : Act)
    (h : a ∈ (aggregate msgs).1.map Act.dispatchBatch) :
    ∃ evs, a = Act.dispatchBatch evs := by
  obtain ⟨b, _, h2⟩ := List.mem_map.mp h
  exact ⟨b, h2.symm⟩

/-- Shape of every `Start` trace: either the `alive` assignment is never
reached, or the trace splits as everything before it (polls, config,
watcher, registrations), the single assignment, and afterwards only batch
dispatches — in particular no registration and no second assignment. -/
theorem startRun_shape (env : Env) :
    Act.setAlive ∉ (startRun env).1
    ∨ ∃ A B, (startRun env).1 = A ++ Act.setAlive :: B
        ∧ Act.setAlive ∉ A ∧ Act.setAlive ∉ B
        ∧ ∀ (d : String) (p : List String), Act.register d p ∉ B := by
  have hshape : Act.setAlive ∉ (afterWait env).1
      ∨ ∃ A B, (afterWait env).1 = A ++ Act.setAlive :: B
          ∧ Act.setAlive ∉ A ∧ Act.setAlive ∉ B
          ∧ ∀ (d : String) (p : List String), Act.register d p ∉ B := by
    cases hic : env.instConfig with
    | error e =>
      left
      simp only [afterWait, hic, List.mem_append, not_or]
      exact ⟨setAlive_not_mem_waitActs _, by simp⟩
    | ok mounts =>
      cases hrm : resolveMounts mounts with
      | error e =>
        left
        simp only [afterWait, hic, hrm, List.mem_append, not_or]
        exact ⟨setAlive_not_mem_waitActs _, by simp⟩
      | ok dirs =>
        by_cases hnw : env.newWatcherOk = true
        · right
          refine ⟨waitActs env.waitSteps ++ [.resolveConfig, .newWatcher] ++ walkActs env.fsys dirs,
                  (aggregate env.msgs).1.map Act.dispatchBatch, ?_, ?_, ?_, ?_⟩
          · simp [afterWait, hic, hrm, hnw]
          · simp only [List.mem_append, not_or]
            exact ⟨⟨setAlive_not_mem_waitActs _, by simp⟩, setAlive_not_mem_walkActs _ _⟩
          · intro h
            obtain ⟨evs, h2⟩ := loopActs_only_dispatch env.msgs _ h
            simp at h2
          · intro d p h
            obtain ⟨evs, h2⟩ := loopActs_only_dispatch env.msgs _ h
            simp at h2
        · left
          simp only [afterWait, hic, hrm, bool_eq_false hnw, Bool.false_eq_true, if_false,
            List.mem_append, not_or]
          exact ⟨setAlive_not_mem_waitActs _, by simp⟩
  cases hg : env.ctxGuest with
  | none =>
    left
    simp [startRun, hg]
  | some g =>
    cases hwl : waitForLima env.waitSteps with
    | waiting =>
      left
      simp only [startRun, hg, hwl]
      exact setAlive_not_mem_waitActs _
    | viaCancel =>
      have : startRun env = afterWait env := by unfold startRun; rw [hg, hwl]
      rw [this]
      exact hshape
    | viaRunning =>
      have : startRun env = afterWait env := by unfold startRun; rw [hg, hwl]
      rw [this]
      exact hshape

/-- Membership in a take is preserved as the prefix grows. -/
theorem mem_take_succ {α : Type} (a : α) (l : List α) (n : Nat)
    (h : a ∈ l.take n) : a ∈ l.take (n + 1) := by
  induction l generalizing n with
  | nil => simp at h
  | cons x xs ih =>
    cases n with
    | zero => simp at h
    | succ m =>
      rw [List.take_succ_cons] at h ⊢
      rcases List.mem_cons.mp h with rfl | h
      · exact List.mem_cons_self _ _
      · exact List.mem_cons_of_mem _ (ih m h)

/-- A trace that never sets the flag keeps it false forever. -/
theorem aliveAt_false_of_not_mem (tr : List Act) (n : Nat)
    (h : Act.setAlive ∉ tr) : aliveAt tr n = false := by
  simp only [aliveAt, decide_eq_false_iff_not]
  exact fun hmem => h (List.take_subset n tr hmem)

/-- `Alive` succeeds exactly when the flag is set. -/
theorem Alive_none_iff (b : Bool) : Alive b = none ↔ b = true := by
  cases b <;> simp [Alive]

/-- Once the flag is set within the first `n` actions of the split trace,
`n` lies beyond the prefix `A`. -/
theorem length_lt_of_mem_take (A B : List Act) (n : Nat)
    (hA : Act.setAlive ∉ A)
    (h : Act.setAlive ∈ (A ++ Act.setAlive :: B).take n) : A.length < n := by
  by_contra hle
  have hle2 : n ≤ A.length := by omega
  rw [List.take_append_eq_append_take] at h
  have hz : n - A.length = 0 := by omega
  rw [hz] at h
  simp only [List.take_zero, List.append_nil] at h
  exact hA (List.take_subset n A h)

/-- Everything after position `n > |A|` of the split trace lies in `B`. -/
theorem drop_subset_suffix (A B : List Act) (n : Nat) (hn : A.length < n) :
    (A ++ Act.setAlive :: B).drop n ⊆ B := by
  have hsplit : A ++ Act.setAlive :: B = (A ++ [Act.setAlive]) ++ B := by simp
  rw [hsplit, List.drop_append_eq_append_drop]
  have hlen : (A ++ [Act.setAlive]).length ≤ n := by simp; omega
  rw [List.drop_eq_nil_of_le hlen]
  simp only [List.nil_append]
  exact List.drop_subset _ _

/-- C3: over every modelled run of `Start`, the alive flag starts false,
never reverts to false once set (hence flips false→true at most once, and
exactly once on any run that reaches the assignment), `Alive` succeeds
exactly while the flag is set, and no watch registration happens at or
after any point where the flag is already set — initial tree registration
completes strictly before `Alive` ever succeeds. -/
theorem claim_C3 (env : Env) :
    aliveAt (startRun env).1 0 = false
    ∧ (∀ n, aliveAt (startRun env).1 n = true → aliveAt (startRun env).1 (n + 1) = true)
    ∧ (∀ n, Alive (aliveAt (startRun env).1 n) = none ↔ aliveAt (startRun env).1 n = true)
    ∧ (∀ n, aliveAt (startRun env).1 n = true →
        ∀ (d : String) (p : List String), Act.register d p ∉ (startRun env).1.drop n)
    ∧ (Act.setAlive ∈ (startRun env).1 →
        ∃ n, aliveAt (startRun env).1 n = false ∧ aliveAt (startRun env).1 (n + 1) = true) := by
  refine ⟨by simp [aliveAt], ?_, fun n => Alive_none_iff _, ?_, ?_⟩
  · intro n h
    simp only [aliveAt, decide_eq_true_eq] at h ⊢
    exact mem_take_succ _ _ _ h
  · rcases startRun_shape env with hnm | ⟨A, B, htr, hA, hB, hreg⟩
    · intro n h
      rw [aliveAt_false_of_not_mem _ _ hnm] at h
      exact absurd h (by simp)
    · intro n h d p hmem
      simp only [aliveAt, decide_eq_true_eq, htr] at h
      have hlt : A.length < n := length_lt_of_mem_take A B n hA h
      rw [htr] at hmem
      exact hreg d p (drop_subset_suffix A B n hlt hmem)
  · rcases startRun_shape env with hnm | ⟨A, B, htr, hA, hB, hreg⟩
    · intro h
      exact absurd h hnm
    · intro _
      refine ⟨A.length, ?_, ?_⟩
      · simp only [aliveAt, htr, List.take_left, decide_eq_false_iff_not]
        exact hA
      · simp only [aliveAt, htr, decide_eq_true_eq, List.take_append_eq_append_take]
        have h1 : A.take (A.length + 1) = A := List.take_of_length_le (by omega)
        have h2 : A.length + 1 - A.length = 1 := by omega
        rw [h1, h2]
        simp

/-- A run that completes registration: guest present, one successful poll,
empty mount list, watcher created, loop cancelled. -/
def envC3 : Env :=
  ⟨some (fun _ => none), [.poll true], .ok [], true,
   (fun _ => .dir "." false .nil), [.cancel]⟩

/-- C3 witness: after the four startup actions of the concrete run
(`pollLima`, `resolveConfig`, `newWatcher`, `setAlive`) the flag is set
and `Alive` succeeds. -/
theorem claim_C3_witness : Alive (aliveAt (startRun envC3).1 4) = none :=
  ((claim_C3 envC3).2.2.1 4).mpr (by decide)
